import Mathlib

/-!
Shallow embedding of the Minesweeper board engine (Minesweeper.h /
Minesweeper.cpp) and proofs about its behaviour.

Modelling conventions:
* `size_t` coordinates and sizes become `Nat`.
* The three `std::unordered_set<Cell>` members become `Finset Cell`
  (hash collisions do not conflate distinct keys, so the sets behave
  extensionally exactly like finite sets of cells).
* `std::time(NULL)` becomes an explicit `now : Nat` argument to the
  mutating operations.
* Functions that may `throw std::runtime_error` return `Board × Bool`,
  the `Bool` recording whether the call threw; the `Board` component is
  the state the object is left in (unchanged when the throw happens
  before any mutation, the mutated state otherwise).
* The neighbour offsets `cell.x + i` for `i ∈ {-1,0,1}` are computed in
  `Int`.  In the C++ source they are computed in `size_t`, where `0 - 1`
  wraps to `SIZE_MAX`, which always fails the `< width_` bounds check,
  exactly as a negative coordinate fails `0 ≤ ·` here; `x + 1` cannot
  wrap for an in-range `x`.  So the `Int` model coincides with the
  `size_t` model on every cell the program ever tests.
* The capacity `height_ * width_` tested by both `FieldDefinition`
  overloads is a `size_t` product and wraps modulo `2^64`; it is
  modelled by `sizeTMul`, with the reduction written out explicitly.
* The breadth-first loop of `OpenCell` is written with an explicit fuel
  argument (`floodLoopF`) so that it is structurally recursive and
  computable by `decide`.  Every loop iteration pops one queue element
  and each push removes one cell from `closed`, so the quantity
  `queue.length + closed.card` decreases by exactly one per iteration;
  `floodLoop` passes exactly that quantity as fuel, which is therefore
  sufficient (`floodLoopF_fuel_irrel` below proves the result does not
  change with more fuel).
-/

/-- A grid coordinate, `Minesweeper::Cell` (two `size_t` fields compared
by value). -/
structure Cell where
  x : Nat
  y : Nat
deriving DecidableEq, Repr

/-- `Minesweeper::GameStatus`. -/
inductive GameStatus where
  | NOT_STARTED
  | IN_PROGRESS
  | VICTORY
  | DEFEAT
deriving DecidableEq, Repr

/-- The state of a `Minesweeper` object (the private fields of the class). -/
structure Board where
  width : Nat
  height : Nat
  start_time : Nat
  finish_time : Nat
  status : GameStatus
  cells_with_mines : Finset Cell
  marked_cells : Finset Cell
  closed_cells : Finset Cell
deriving DecidableEq

/-- The nine `(i, j)` offset pairs scanned by the two nested
`for (int i = -1; i <= 1; ++i) for (int j = -1; j <= 1; ++j)` loops of
`CalcMinesNear` and `OpenCell`, in loop order. -/
def offsets : List (Int × Int) :=
  [(-1, -1), (-1, 0), (-1, 1), (0, -1), (0, 0), (0, 1), (1, -1), (1, 0), (1, 1)]

/-- The coordinates `(cell.x + i, cell.y + j)` of a neighbour candidate. -/
def offAt (c : Cell) (d : Int × Int) : Int × Int :=
  ((c.x : Int) + d.1, (c.y : Int) + d.2)

/-- `Minesweeper::IsCorrectBoundary` applied to a neighbour candidate
whose coordinates are carried as `Int` (see the header comment on
`size_t` wrap-around). -/
def inBoundsI (w h : Nat) (p : Int × Int) : Prop :=
  0 ≤ p.1 ∧ p.1 < (w : Int) ∧ 0 ≤ p.2 ∧ p.2 < (h : Int)

instance (w h : Nat) (p : Int × Int) : Decidable (inBoundsI w h p) := by
  unfold inBoundsI; infer_instance

/-- Converts in-range `Int` coordinates back to a `Cell`. -/
def toCell (p : Int × Int) : Cell :=
  ⟨p.1.toNat, p.2.toNat⟩

/-- `Minesweeper::IsCorrectBoundary` for a `Cell` argument (the
`0 <= cell.x` half is vacuous on `Nat`, as it is on `size_t`). -/
def isCorrectBoundary (w h : Nat) (c : Cell) : Prop :=
  c.x < w ∧ c.y < h

instance (w h : Nat) (c : Cell) : Decidable (isCorrectBoundary w h c) := by
  unfold isCorrectBoundary; infer_instance

/-- `Minesweeper::CalcMinesNear`: counts the offsets whose cell is
in-bounds and a mine (the `(0,0)` offset, i.e. the cell itself, is
scanned too, exactly as in the source). -/
def calcMinesNear (w h : Nat) (mines : Finset Cell) (c : Cell) : Nat :=
  offsets.countP fun d =>
    decide (inBoundsI w h (offAt c d) ∧ toCell (offAt c d) ∈ mines)

/-- `Minesweeper::IsFinishedGame`. -/
def isFinishedGame (b : Board) : Prop :=
  b.status = GameStatus.VICTORY ∨ b.status = GameStatus.DEFEAT

instance (b : Board) : Decidable (isFinishedGame b) := by
  unfold isFinishedGame; infer_instance

/-- `Minesweeper::StartGame`. -/
def startGame (b : Board) (now : Nat) : Board :=
  { b with status := GameStatus.IN_PROGRESS, start_time := now }

/-- `Minesweeper::Defeat`. -/
def defeat (b : Board) (now : Nat) : Board :=
  { b with status := GameStatus.DEFEAT, finish_time := now }

/-- `Minesweeper::VictoryCheck`. -/
def victoryCheck (b : Board) (now : Nat) : Board :=
  if b.closed_cells.card ≠ b.cells_with_mines.card then b
  else { b with status := GameStatus.VICTORY, finish_time := now }

/-- One neighbour test of the inner double loop of `OpenCell`'s flood
fill: if the candidate is in-bounds, still closed, and not marked, it is
pushed on the queue and erased from `closed`. -/
def pushStep (w h : Nat) (marked : Finset Cell) (cur : Cell)
    (acc : List Cell × Finset Cell) (d : Int × Int) : List Cell × Finset Cell :=
  if inBoundsI w h (offAt cur d) ∧ toCell (offAt cur d) ∈ acc.2 ∧
      toCell (offAt cur d) ∉ marked then
    (acc.1 ++ [toCell (offAt cur d)], acc.2.erase (toCell (offAt cur d)))
  else acc

/-- The full neighbour scan of one popped cell (the two nested `for`
loops inside the `while`). -/
def pushNeighbors (w h : Nat) (marked : Finset Cell) (cur : Cell)
    (q : List Cell) (closed : Finset Cell) : List Cell × Finset Cell :=
  offsets.foldl (pushStep w h marked cur) (q, closed)

/-- The `while (!q.empty())` loop of `OpenCell`, with explicit fuel (see
the header comment). -/
def floodLoopF (w h : Nat) (mines marked : Finset Cell) :
    Nat → List Cell → Finset Cell → Finset Cell
  | 0, _, closed => closed
  | _ + 1, [], closed => closed
  | fuel + 1, cur :: q, closed =>
    if calcMinesNear w h mines cur = 0 then
      let r := pushNeighbors w h marked cur q closed
      floodLoopF w h mines marked fuel r.1 r.2
    else
      floodLoopF w h mines marked fuel q closed

/-- The flood fill, run with exactly enough fuel to drain the queue. -/
def floodLoop (w h : Nat) (mines marked : Finset Cell)
    (q : List Cell) (closed : Finset Cell) : Finset Cell :=
  floodLoopF w h mines marked (q.length + closed.card) q closed

/-- The `if (status_ == GameStatus::NOT_STARTED) StartGame();` step
shared by `OpenCell` and `MarkCell`. -/
def maybeStart (b : Board) (now : Nat) : Board :=
  if b.status = GameStatus.NOT_STARTED then startGame b now else b

/-- The flood-fill phase of `OpenCell` (initial erase of the opened
cell, the queue loop, then `VictoryCheck`). -/
def floodOpen (b : Board) (c : Cell) (now : Nat) : Board :=
  victoryCheck
    { b with closed_cells := (floodLoop b.width b.height b.cells_with_mines
        b.marked_cells [c] (b.closed_cells.erase c)) } now

/-- `Minesweeper::OpenCell`.  Returns the resulting state and whether
the call threw. -/
def openCell (b : Board) (c : Cell) (now : Nat) : Board × Bool :=
  if ¬ isCorrectBoundary b.width b.height c then (b, true)
  else if isFinishedGame b ∨ c ∈ b.marked_cells ∨ c ∉ b.closed_cells then (b, false)
  else if c ∈ (maybeStart b now).cells_with_mines then
    (defeat (maybeStart b now) now, false)
  else (floodOpen (maybeStart b now) c now, false)

/-- `Minesweeper::MarkCell`.  Returns the resulting state and whether
the call threw. -/
def markCell (b : Board) (c : Cell) (now : Nat) : Board × Bool :=
  if ¬ isCorrectBoundary b.width b.height c then (b, true)
  else if isFinishedGame b then (b, false)
  else if c ∈ (maybeStart b now).marked_cells then
    ({ maybeStart b now with
        marked_cells := (maybeStart b now).marked_cells.erase c }, false)
  else
    ({ maybeStart b now with
        marked_cells := insert c (maybeStart b now).marked_cells }, false)

/-- The set of all grid cells, as produced by `Minesweeper::FillClosed`. -/
def grid (w h : Nat) : Finset Cell :=
  (Finset.range w ×ˢ Finset.range h).image fun p => ⟨p.1, p.2⟩

/-- The enumeration of all grid cells built by `Minesweeper::FillMines`
into `possible_mine` (x outer, y inner) before shuffling. -/
def gridList (w h : Nat) : List Cell :=
  (List.range w).flatMap fun x => (List.range h).map fun y => ⟨x, y⟩

/-- `Minesweeper::FillMines`, parameterised by the shuffled enumeration
`perm` (the result of `std::shuffle` on `possible_mine`); theorems that
depend on the shuffle assume `perm.Perm (gridList w h)`.  The source
returns early when `mines_count` is zero and otherwise inserts the first
`mines_count` cells of the shuffled vector. -/
def fillMines (perm : List Cell) (mines_count : Nat) : Finset Cell :=
  if mines_count = 0 then ∅ else (perm.take mines_count).toFinset

/-- `Minesweeper::ResetValues`: zeroes both dimensions and timers,
resets the status, and clears the three sets. -/
def resetValues (_ : Board) : Board :=
  { width := 0, height := 0, start_time := 0, finish_time := 0,
    status := GameStatus.NOT_STARTED,
    cells_with_mines := ∅, marked_cells := ∅, closed_cells := ∅ }

/-- `ResetValues()` followed by `SetNewBoundary(width, height)` (the
first two steps of both `NewGame` overloads). -/
def resetAndSetBoundary (b : Board) (w h : Nat) : Board :=
  { resetValues b with width := w, height := h }

/-- The capacity `height_ * width_` exactly as both `FieldDefinition`
overloads compute it: a `size_t` (64-bit) multiplication, so the
product wraps modulo `2^64`.  For example `height_ = width_ = 2^32`
yields capacity `0`, making those calls throw for any positive mine
count even though the mathematical product is huge. -/
def sizeTMul (a b : Nat) : Nat :=
  (a * b) % 2 ^ 64

/-- `Minesweeper::NewGame(width, height, mines_count)`:
`ResetValues(); SetNewBoundary(width, height); FieldDefinition(mines_count)`.
`FieldDefinition` throws before any mutation when
`mines_count > height_ * width_` (a wrapping `size_t` product);
otherwise it fills the mines (from the shuffled enumeration `perm`) and
the closed set. -/
def newGameByCount (b : Board) (w h mines_count : Nat) (perm : List Cell) :
    Board × Bool :=
  if mines_count > sizeTMul h w then (resetAndSetBoundary b w h, true)
  else
    ({ resetAndSetBoundary b w h with cells_with_mines := fillMines perm mines_count, closed_cells := grid w h }, false)

/-- `Minesweeper::NewGame(width, height, cells_with_mines)`:
`ResetValues(); SetNewBoundary(width, height); FieldDefinition(cells)`.
The size check (against the wrapping `size_t` product
`height_ * width_`) and the per-cell boundary checks all happen before
any insertion, so on a throw the state is the reset-plus-boundary
state. -/
def newGameByList (b : Board) (w h : Nat) (cells_with_mines : List Cell) :
    Board × Bool :=
  if cells_with_mines.length > sizeTMul h w then
    (resetAndSetBoundary b w h, true)
  else if ¬ cells_with_mines.all (fun c => decide (isCorrectBoundary w h c)) then
    (resetAndSetBoundary b w h, true)
  else
    ({ resetAndSetBoundary b w h with cells_with_mines := cells_with_mines.toFinset, closed_cells := grid w h }, false)

/-- `Minesweeper::GetGameStatus`. -/
def getGameStatus (b : Board) : GameStatus :=
  b.status

/-- The string appended for one cell by `Minesweeper::RenderField`. -/
def cellString (b : Board) (c : Cell) : String :=
  if c ∈ b.cells_with_mines ∧ b.status = GameStatus.DEFEAT then "*"
  else if c ∈ b.marked_cells then "?"
  else if c ∈ b.closed_cells then "-"
  else if calcMinesNear b.width b.height b.cells_with_mines c ≠ 0 then
    toString (calcMinesNear b.width b.height b.cells_with_mines c)
  else "."

/-- One row of `Minesweeper::RenderField` (the inner `for` loop over x,
appending one cell string at a time). -/
def renderRow (b : Board) (y : Nat) : String :=
  (List.range b.width).foldl (fun s x => s ++ cellString b ⟨x, y⟩) ""

/-- `Minesweeper::RenderField`: one string per row y in `[0, height)`. -/
def renderField (b : Board) : List String :=
  (List.range b.height).map (renderRow b)

/-- A default-initialised `Board` (the field initialisers of the class:
zero dimensions and timers, `NOT_STARTED`, three empty sets). -/
def initBoard : Board :=
  { width := 0, height := 0, start_time := 0, finish_time := 0,
    status := GameStatus.NOT_STARTED,
    cells_with_mines := ∅, marked_cells := ∅, closed_cells := ∅ }

/-- The states reachable through the public mutating interface: a
successful `NewGame` (either overload; for the random overload the
shuffled enumeration is an arbitrary permutation of the grid cells),
followed by any sequence of `OpenCell` and `MarkCell` calls. -/
inductive Reachable : Board → Prop where
  | newList (b : Board) (w h : Nat) (l : List Cell)
      (hok : (newGameByList b w h l).2 = false) :
      Reachable (newGameByList b w h l).1
  | newCount (b : Board) (w h mc : Nat) (perm : List Cell)
      (hperm : perm.Perm (gridList w h))
      (hok : (newGameByCount b w h mc perm).2 = false) :
      Reachable (newGameByCount b w h mc perm).1
  | openStep (b : Board) (c : Cell) (now : Nat) (hb : Reachable b) :
      Reachable (openCell b c now).1
  | markStep (b : Board) (c : Cell) (now : Nat) (hb : Reachable b) :
      Reachable (markCell b c now).1

/-- Spec-side definition, written from the claim wording for C4: the
number of mine cells among the at-most-8 in-bounds cells adjacent to
`c` (cells other than `c` whose coordinates differ from those of `c` by
at most one). -/
def specNeighborMineCount (w h : Nat) (mines : Finset Cell) (c : Cell) : Nat :=
  ((grid w h).filter fun n =>
    n ≠ c ∧ ((n.x : Int) - (c.x : Int)).natAbs ≤ 1 ∧
      ((n.y : Int) - (c.y : Int)).natAbs ≤ 1 ∧ n ∈ mines).card

/-- Spec-side definition, written from the claim wording for C6: the
character expected at a cell of the rendered field. -/
def specRenderChar (b : Board) (c : Cell) : Char :=
  if c ∈ b.cells_with_mines ∧ b.status = GameStatus.DEFEAT then '*'
  else if c ∈ b.marked_cells then '?'
  else if c ∈ b.closed_cells then '-'
  else if calcMinesNear b.width b.height b.cells_with_mines c ≠ 0 then
    Nat.digitChar (calcMinesNear b.width b.height b.cells_with_mines c)
  else '.'

/-- The inductive invariant of reachable board states: every mine is
still closed; the closed set lies inside the grid; a `VICTORY` board has
exactly as many closed cells as mines and at least one opened cell; and
a board that is not yet finished either has every grid cell still closed
or strictly more closed cells than mines. -/
def BoardInv (b : Board) : Prop :=
  b.cells_with_mines ⊆ b.closed_cells ∧
  b.closed_cells ⊆ grid b.width b.height ∧
  (b.status = GameStatus.VICTORY →
    b.closed_cells.card = b.cells_with_mines.card ∧
    b.closed_cells ≠ grid b.width b.height) ∧
  ((b.status = GameStatus.NOT_STARTED ∨ b.status = GameStatus.IN_PROGRESS) →
    b.closed_cells = grid b.width b.height ∨
    b.cells_with_mines.card < b.closed_cells.card)

/-! ### Basic lemmas about the grid and the neighbour count -/

theorem mem_grid {w h : Nat} {c : Cell} : c ∈ grid w h ↔ c.x < w ∧ c.y < h := by
  constructor
  · intro hc
    simp only [grid, Finset.mem_image, Finset.mem_product, Finset.mem_range] at hc
    obtain ⟨p, ⟨hp1, hp2⟩, rfl⟩ := hc
    exact ⟨hp1, hp2⟩
  · intro ⟨h1, h2⟩
    simp only [grid, Finset.mem_image, Finset.mem_product, Finset.mem_range]
    exact ⟨(c.x, c.y), ⟨h1, h2⟩, rfl⟩

theorem mem_gridList {w h : Nat} {c : Cell} :
    c ∈ gridList w h ↔ c.x < w ∧ c.y < h := by
  constructor
  · intro hc
    simp only [gridList, List.mem_flatMap, List.mem_map, List.mem_range] at hc
    obtain ⟨x, hx, y, hy, rfl⟩ := hc
    exact ⟨hx, hy⟩
  · intro ⟨h1, h2⟩
    simp only [gridList, List.mem_flatMap, List.mem_map, List.mem_range]
    exact ⟨c.x, h1, c.y, h2, rfl⟩

theorem calcMinesNear_eq_zero_iff {w h : Nat} {mines : Finset Cell} {c : Cell} :
    calcMinesNear w h mines c = 0 ↔
      ∀ d ∈ offsets, ¬ (inBoundsI w h (offAt c d) ∧ toCell (offAt c d) ∈ mines) := by
  simp [calcMinesNear, List.countP_eq_zero]

theorem calcMinesNear_empty {w h : Nat} {c : Cell} :
    calcMinesNear w h (∅ : Finset Cell) c = 0 := by
  simp [calcMinesNear, List.countP_eq_zero]

theorem calcMinesNear_le_nine {w h : Nat} {mines : Finset Cell} {c : Cell} :
    calcMinesNear w h mines c ≤ 9 :=
  le_trans (List.countP_le_length _) (by decide)

/-! ### Lemmas about one neighbour push of the flood fill -/

theorem pushStep_closed_subset {w h : Nat} {marked : Finset Cell} {cur : Cell}
    {acc : List Cell × Finset Cell} {d : Int × Int} :
    (pushStep w h marked cur acc d).2 ⊆ acc.2 := by
  unfold pushStep
  split
  · exact Finset.erase_subset _ _
  · exact Finset.Subset.refl _

theorem pushStep_queue_mono {w h : Nat} {marked : Finset Cell} {cur : Cell}
    {acc : List Cell × Finset Cell} {d : Int × Int} {x : Cell} (hx : x ∈ acc.1) :
    x ∈ (pushStep w h marked cur acc d).1 := by
  unfold pushStep
  split
  · exact List.mem_append_left _ hx
  · exact hx

theorem pushStep_sum {w h : Nat} {marked : Finset Cell} {cur : Cell}
    {acc : List Cell × Finset Cell} {d : Int × Int} :
    (pushStep w h marked cur acc d).1.length + (pushStep w h marked cur acc d).2.card
      = acc.1.length + acc.2.card := by
  unfold pushStep
  split
  case isTrue hcond =>
    have hmem := hcond.2.1
    have hcard : 0 < acc.2.card := Finset.card_pos.mpr ⟨_, hmem⟩
    simp only [List.length_append, List.length_cons, List.length_nil,
      Finset.card_erase_of_mem hmem]
    omega
  case isFalse => rfl

theorem pushStep_marked_mem {w h : Nat} {marked : Finset Cell} {cur : Cell}
    {acc : List Cell × Finset Cell} {d : Int × Int} {m : Cell}
    (hm : m ∈ marked) (hmc : m ∈ acc.2) :
    m ∈ (pushStep w h marked cur acc d).2 := by
  unfold pushStep
  split
  case isTrue hcond =>
    exact Finset.mem_erase.mpr ⟨fun he => hcond.2.2 (he ▸ hm), hmc⟩
  case isFalse => exact hmc

theorem pushStep_mine_mem {w h : Nat} {mines marked : Finset Cell} {cur : Cell}
    {acc : List Cell × Finset Cell} {d : Int × Int} {m : Cell}
    (hd : ¬ (inBoundsI w h (offAt cur d) ∧ toCell (offAt cur d) ∈ mines))
    (hm : m ∈ mines) (hmc : m ∈ acc.2) :
    m ∈ (pushStep w h marked cur acc d).2 := by
  unfold pushStep
  split
  case isTrue hcond =>
    refine Finset.mem_erase.mpr ⟨fun he => ?_, hmc⟩
    exact hd ⟨hcond.1, he ▸ hm⟩
  case isFalse => exact hmc

theorem pushStep_stays_or_pushed {w h : Nat} {marked : Finset Cell} {cur : Cell}
    {acc : List Cell × Finset Cell} {d : Int × Int} {x : Cell} (hx : x ∈ acc.2) :
    x ∈ (pushStep w h marked cur acc d).2 ∨ x ∈ (pushStep w h marked cur acc d).1 := by
  unfold pushStep
  split
  case isTrue hcond =>
    by_cases hxe : x = toCell (offAt cur d)
    · exact Or.inr (List.mem_append_right _ (by simp [hxe]))
    · exact Or.inl (Finset.mem_erase.mpr ⟨hxe, hx⟩)
  case isFalse => exact Or.inl hx

theorem pushStep_disjoint {w h : Nat} {marked : Finset Cell} {cur : Cell}
    {acc : List Cell × Finset Cell} {d : Int × Int}
    (hdisj : ∀ x ∈ acc.1, x ∉ acc.2) :
    ∀ x ∈ (pushStep w h marked cur acc d).1, x ∉ (pushStep w h marked cur acc d).2 := by
  unfold pushStep
  split
  case isTrue hcond =>
    intro x hx
    rcases List.mem_append.mp hx with hx1 | hx2
    · exact fun hmem => hdisj x hx1 (Finset.mem_of_mem_erase hmem)
    · have : x = toCell (offAt cur d) := by simpa using hx2
      subst this
      exact Finset.not_mem_erase _ _
  case isFalse => exact hdisj

/-! ### Lemmas about the whole neighbour scan (a fold of `pushStep`) -/

theorem foldl_pushStep_closed_subset {w h : Nat} {marked : Finset Cell} {cur : Cell} :
    ∀ (l : List (Int × Int)) (acc : List Cell × Finset Cell),
      (l.foldl (pushStep w h marked cur) acc).2 ⊆ acc.2 := by
  intro l
  induction l with
  | nil => intro acc; exact Finset.Subset.refl _
  | cons d l ih =>
    intro acc
    exact Finset.Subset.trans (ih (pushStep w h marked cur acc d)) pushStep_closed_subset

theorem foldl_pushStep_queue_mono {w h : Nat} {marked : Finset Cell} {cur : Cell} :
    ∀ (l : List (Int × Int)) (acc : List Cell × Finset Cell) (x : Cell),
      x ∈ acc.1 → x ∈ (l.foldl (pushStep w h marked cur) acc).1 := by
  intro l
  induction l with
  | nil => intro acc x hx; exact hx
  | cons d l ih =>
    intro acc x hx
    exact ih (pushStep w h marked cur acc d) x (pushStep_queue_mono hx)

theorem foldl_pushStep_sum {w h : Nat} {marked : Finset Cell} {cur : Cell} :
    ∀ (l : List (Int × Int)) (acc : List Cell × Finset Cell),
      (l.foldl (pushStep w h marked cur) acc).1.length
          + (l.foldl (pushStep w h marked cur) acc).2.card
        = acc.1.length + acc.2.card := by
  intro l
  induction l with
  | nil => intro acc; rfl
  | cons d l ih =>
    intro acc
    rw [List.foldl_cons, ih (pushStep w h marked cur acc d), pushStep_sum]

theorem foldl_pushStep_marked_mem {w h : Nat} {marked : Finset Cell} {cur : Cell} :
    ∀ (l : List (Int × Int)) (acc : List Cell × Finset Cell) (m : Cell),
      m ∈ marked → m ∈ acc.2 → m ∈ (l.foldl (pushStep w h marked cur) acc).2 := by
  intro l
  induction l with
  | nil => intro acc m _ hmc; exact hmc
  | cons d l ih =>
    intro acc m hm hmc
    exact ih (pushStep w h marked cur acc d) m hm (pushStep_marked_mem hm hmc)

theorem foldl_pushStep_mine_mem {w h : Nat} {mines marked : Finset Cell} {cur : Cell} :
    ∀ (l : List (Int × Int)) (acc : List Cell × Finset Cell) (m : Cell),
      (∀ d ∈ l, ¬ (inBoundsI w h (offAt cur d) ∧ toCell (offAt cur d) ∈ mines)) →
      m ∈ mines → m ∈ acc.2 → m ∈ (l.foldl (pushStep w h marked cur) acc).2 := by
  intro l
  induction l with
  | nil => intro acc m _ _ hmc; exact hmc
  | cons d l ih =>
    intro acc m hl hm hmc
    exact ih (pushStep w h marked cur acc d) m (fun e he => hl e (List.mem_cons_of_mem _ he))
      hm (pushStep_mine_mem (hl d (List.mem_cons_self _ _)) hm hmc)

theorem foldl_pushStep_erased_pushed {w h : Nat} {marked : Finset Cell} {cur : Cell} :
    ∀ (l : List (Int × Int)) (acc : List Cell × Finset Cell) (x : Cell),
      x ∈ acc.2 → x ∉ (l.foldl (pushStep w h marked cur) acc).2 →
      x ∈ (l.foldl (pushStep w h marked cur) acc).1 := by
  intro l
  induction l with
  | nil => intro acc x hx hnx; exact absurd hx hnx
  | cons d l ih =>
    intro acc x hx hnx
    rcases @pushStep_stays_or_pushed w h marked cur acc d x hx with hstay | hpush
    · exact ih (pushStep w h marked cur acc d) x hstay hnx
    · exact foldl_pushStep_queue_mono l (pushStep w h marked cur acc d) x hpush

theorem foldl_pushStep_disjoint {w h : Nat} {marked : Finset Cell} {cur : Cell} :
    ∀ (l : List (Int × Int)) (acc : List Cell × Finset Cell),
      (∀ x ∈ acc.1, x ∉ acc.2) →
      ∀ x ∈ (l.foldl (pushStep w h marked cur) acc).1,
        x ∉ (l.foldl (pushStep w h marked cur) acc).2 := by
  intro l
  induction l with
  | nil => intro acc hd; exact hd
  | cons d l ih =>
    intro acc hd
    exact ih (pushStep w h marked cur acc d) (pushStep_disjoint hd)

theorem foldl_pushStep_nbr_cleared {w h : Nat} {marked : Finset Cell} {cur : Cell} :
    ∀ (l : List (Int × Int)) (acc : List Cell × Finset Cell) (d : Int × Int),
      d ∈ l → inBoundsI w h (offAt cur d) → toCell (offAt cur d) ∉ marked →
      toCell (offAt cur d) ∉ (l.foldl (pushStep w h marked cur) acc).2 := by
  intro l
  induction l with
  | nil => intro acc d hd; exact absurd hd (List.not_mem_nil _)
  | cons e l ih =>
    intro acc d hd hb hnm
    rcases List.mem_cons.mp hd with rfl | hdl
    · intro hmem
      have hsub := @foldl_pushStep_closed_subset w h marked cur l
        (pushStep w h marked cur acc d)
      have hin : toCell (offAt cur d) ∈ (pushStep w h marked cur acc d).2 := hsub hmem
      revert hin
      unfold pushStep
      split
      case isTrue hcond => exact Finset.not_mem_erase _ _
      case isFalse hcond =>
        intro hin
        exact hcond ⟨hb, hin, hnm⟩
    · exact ih (pushStep w h marked cur acc e) d hdl hb hnm

/-! ### Invariants of the flood-fill loop -/

theorem floodLoopF_subset {w h : Nat} {mines marked : Finset Cell} :
    ∀ (fuel : Nat) (q : List Cell) (closed : Finset Cell),
      floodLoopF w h mines marked fuel q closed ⊆ closed := by
  intro fuel
  induction fuel with
  | zero => intro q closed; exact Finset.Subset.refl _
  | succ fuel ih =>
    intro q closed
    cases q with
    | nil => exact Finset.Subset.refl _
    | cons cur q =>
      simp only [floodLoopF]
      split
      · exact Finset.Subset.trans (ih _ _)
          (foldl_pushStep_closed_subset offsets (q, closed))
      · exact ih _ _

theorem floodLoopF_marked_mem {w h : Nat} {mines marked : Finset Cell} :
    ∀ (fuel : Nat) (q : List Cell) (closed : Finset Cell) (m : Cell),
      m ∈ marked → m ∈ closed → m ∈ floodLoopF w h mines marked fuel q closed := by
  intro fuel
  induction fuel with
  | zero => intro q closed m _ hmc; exact hmc
  | succ fuel ih =>
    intro q closed m hm hmc
    cases q with
    | nil => exact hmc
    | cons cur q =>
      simp only [floodLoopF]
      split
      · exact ih _ _ m hm (foldl_pushStep_marked_mem offsets (q, closed) m hm hmc)
      · exact ih _ _ m hm hmc

theorem floodLoopF_mine_mem {w h : Nat} {mines marked : Finset Cell} :
    ∀ (fuel : Nat) (q : List Cell) (closed : Finset Cell) (m : Cell),
      m ∈ mines → m ∈ closed → m ∈ floodLoopF w h mines marked fuel q closed := by
  intro fuel
  induction fuel with
  | zero => intro q closed m _ hmc; exact hmc
  | succ fuel ih =>
    intro q closed m hm hmc
    cases q with
    | nil => exact hmc
    | cons cur q =>
      simp only [floodLoopF]
      split
      case isTrue hzero =>
        exact ih _ _ m hm (foldl_pushStep_mine_mem offsets (q, closed) m
          (calcMinesNear_eq_zero_iff.mp hzero) hm hmc)
      case isFalse => exact ih _ _ m hm hmc

/-- With no mines and no marks, the flood-fill loop maintains the
invariant that every already-opened grid cell either is still pending on
the queue or has all of its in-bounds neighbours opened; at the end the
queue is empty, so the second disjunct holds of every opened cell. -/
theorem floodLoopF_complete {w h : Nat} :
    ∀ (fuel : Nat) (q : List Cell) (closed : Finset Cell),
      q.length + closed.card ≤ fuel →
      (∀ x ∈ q, x ∉ closed) →
      (∀ x, x ∈ grid w h → x ∉ closed → x ∈ q ∨
        ∀ d ∈ offsets, inBoundsI w h (offAt x d) → toCell (offAt x d) ∉ closed) →
      ∀ c ∈ grid w h, c ∉ floodLoopF w h ∅ ∅ fuel q closed →
        ∀ d ∈ offsets, inBoundsI w h (offAt c d) →
          toCell (offAt c d) ∉ floodLoopF w h ∅ ∅ fuel q closed := by
  intro fuel
  induction fuel with
  | zero =>
    intro q closed hm _ _ c _ _ d _ _
    have hcard : closed.card = 0 := by omega
    have : closed = ∅ := Finset.card_eq_zero.mp hcard
    simp [floodLoopF, this]
  | succ fuel ih =>
    intro q closed hm hA hB c hc hnc d hd hbnd
    cases q with
    | nil =>
      simp only [floodLoopF] at hnc ⊢
      rcases hB c hc hnc with hq | hnbr
      · exact absurd hq (List.not_mem_nil _)
      · exact hnbr d hd hbnd
    | cons cur q =>
      simp only [floodLoopF, calcMinesNear_empty, if_pos] at hnc ⊢
      have hsum : (pushNeighbors w h ∅ cur q closed).1.length
          + (pushNeighbors w h ∅ cur q closed).2.card = q.length + closed.card :=
        foldl_pushStep_sum offsets (q, closed)
      have hm' : (pushNeighbors w h ∅ cur q closed).1.length
          + (pushNeighbors w h ∅ cur q closed).2.card ≤ fuel := by
        simp only [List.length_cons] at hm
        omega
      have hA' : ∀ x ∈ (pushNeighbors w h ∅ cur q closed).1,
          x ∉ (pushNeighbors w h ∅ cur q closed).2 :=
        foldl_pushStep_disjoint offsets (q, closed)
          (fun x hx => hA x (List.mem_cons_of_mem _ hx))
      have hB' : ∀ x, x ∈ grid w h → x ∉ (pushNeighbors w h ∅ cur q closed).2 →
          x ∈ (pushNeighbors w h ∅ cur q closed).1 ∨
          ∀ e ∈ offsets, inBoundsI w h (offAt x e) →
            toCell (offAt x e) ∉ (pushNeighbors w h ∅ cur q closed).2 := by
        intro x hxg hxr
        by_cases hxc : x ∈ closed
        · exact Or.inl (foldl_pushStep_erased_pushed offsets (q, closed) x hxc hxr)
        · rcases hB x hxg hxc with hxq | hnbr
          · rcases List.mem_cons.mp hxq with rfl | hxq'
            · refine Or.inr fun e he hbe => ?_
              exact foldl_pushStep_nbr_cleared offsets (q, closed) e he hbe
                (Finset.not_mem_empty _)
            · exact Or.inl (foldl_pushStep_queue_mono offsets (q, closed) x hxq')
          · refine Or.inr fun e he hbe => fun hmem => ?_
            exact hnbr e he hbe (foldl_pushStep_closed_subset offsets (q, closed) hmem)
      exact ih _ _ hm' hA' hB' c hc hnc d hd hbnd

theorem mem_grid_mk {w h a b : Nat} : (⟨a, b⟩ : Cell) ∈ grid w h ↔ a < w ∧ b < h :=
  mem_grid

/-- If a set of "open" cells contains one grid cell and is closed under
taking in-bounds neighbours, it contains the whole grid (walk one grid
step at a time from the seed). -/
theorem grid_connected {w h : Nat} {C : Finset Cell}
    (hprop : ∀ c ∈ grid w h, c ∉ C →
      ∀ d ∈ offsets, inBoundsI w h (offAt c d) → toCell (offAt c d) ∉ C)
    (s : Cell) (hs : s ∈ grid w h) (hsC : s ∉ C) :
    ∀ c ∈ grid w h, c ∉ C := by
  have step : ∀ c' ∈ grid w h, c' ∉ C → ∀ c ∈ grid w h, ∀ d ∈ offsets,
      offAt c' d = ((c.x : Int), (c.y : Int)) → c ∉ C := by
    intro c' hc' hc'C c hc d hd heq
    have hbnd : inBoundsI w h (offAt c' d) := by
      rw [heq]
      refine ⟨Int.ofNat_nonneg _, ?_, Int.ofNat_nonneg _, ?_⟩
      · show (c.x : Int) < (w : Int)
        exact_mod_cast (mem_grid.mp hc).1
      · show (c.y : Int) < (h : Int)
        exact_mod_cast (mem_grid.mp hc).2
    have htc : toCell (offAt c' d) = c := by
      rw [heq]; simp [toCell]
    have := hprop c' hc' hc'C d hd hbnd
    rwa [htc] at this
  suffices H : ∀ n c, c ∈ grid w h →
      (s.x - c.x) + (c.x - s.x) + ((s.y - c.y) + (c.y - s.y)) ≤ n → c ∉ C by
    intro c hc
    exact H _ c hc le_rfl
  intro n
  induction n with
  | zero =>
    intro c hc hn
    have hx : c.x = s.x := by omega
    have hy : c.y = s.y := by omega
    have : c = s := by
      cases c; cases s
      simp only [Cell.mk.injEq]
      exact ⟨hx, hy⟩
    exact this ▸ hsC
  | succ n ih =>
    intro c hc hn
    obtain ⟨hcx, hcy⟩ := mem_grid.mp hc
    obtain ⟨hsx, hsy⟩ := mem_grid.mp hs
    rcases Nat.lt_trichotomy c.x s.x with hlt | heqx | hgt
    · have hc' : (⟨c.x + 1, c.y⟩ : Cell) ∈ grid w h :=
        mem_grid_mk.mpr ⟨by omega, hcy⟩
      have hmeas : (s.x - (c.x + 1)) + ((c.x + 1) - s.x)
          + ((s.y - c.y) + (c.y - s.y)) ≤ n := by omega
      have hc'C : (⟨c.x + 1, c.y⟩ : Cell) ∉ C := ih _ hc' hmeas
      refine step _ hc' hc'C c hc (-1, 0) (by decide) ?_
      simp only [offAt, Prod.mk.injEq]
      constructor <;> omega
    · rcases Nat.lt_trichotomy c.y s.y with hlty | heqy | hgty
      · have hc' : (⟨c.x, c.y + 1⟩ : Cell) ∈ grid w h :=
          mem_grid_mk.mpr ⟨hcx, by omega⟩
        have hmeas : (s.x - c.x) + (c.x - s.x)
            + ((s.y - (c.y + 1)) + ((c.y + 1) - s.y)) ≤ n := by omega
        have hc'C : (⟨c.x, c.y + 1⟩ : Cell) ∉ C := ih _ hc' hmeas
        refine step _ hc' hc'C c hc (0, -1) (by decide) ?_
        simp only [offAt, Prod.mk.injEq]
        constructor <;> omega
      · have : c = s := by
          cases c; cases s
          simp only [Cell.mk.injEq]
          exact ⟨heqx, heqy⟩
        exact this ▸ hsC
      · have hc' : (⟨c.x, c.y - 1⟩ : Cell) ∈ grid w h :=
          mem_grid_mk.mpr ⟨hcx, by omega⟩
        have hmeas : (s.x - c.x) + (c.x - s.x)
            + ((s.y - (c.y - 1)) + ((c.y - 1) - s.y)) ≤ n := by omega
        have hc'C : (⟨c.x, c.y - 1⟩ : Cell) ∉ C := ih _ hc' hmeas
        refine step _ hc' hc'C c hc (0, 1) (by decide) ?_
        simp only [offAt, Prod.mk.injEq]
        constructor <;> omega
    · have hc' : (⟨c.x - 1, c.y⟩ : Cell) ∈ grid w h :=
        mem_grid_mk.mpr ⟨by omega, hcy⟩
      have hmeas : (s.x - (c.x - 1)) + ((c.x - 1) - s.x)
          + ((s.y - c.y) + (c.y - s.y)) ≤ n := by omega
      have hc'C : (⟨c.x - 1, c.y⟩ : Cell) ∉ C := ih _ hc' hmeas
      refine step _ hc' hc'C c hc (1, 0) (by decide) ?_
      simp only [offAt, Prod.mk.injEq]
      constructor <;> omega

theorem newGameByCount_threw_iff {b : Board} {w h mc : Nat} {perm : List Cell} :
    (newGameByCount b w h mc perm).2 = true ↔ mc > sizeTMul h w := by
  unfold newGameByCount
  split
  case isTrue hgt => simpa using hgt
  case isFalse hgt => simpa using hgt

theorem newGameByCount_threw_state {b : Board} {w h mc : Nat} {perm : List Cell}
    (ht : (newGameByCount b w h mc perm).2 = true) :
    (newGameByCount b w h mc perm).1 =
      { width := w, height := h, start_time := 0, finish_time := 0,
        status := GameStatus.NOT_STARTED,
        cells_with_mines := ∅, marked_cells := ∅, closed_cells := ∅ } := by
  unfold newGameByCount at ht ⊢
  split
  case isTrue => rfl
  case isFalse hgt =>
    rw [if_neg hgt] at ht
    exact absurd ht (by simp)

theorem newGameByCount_ok {b : Board} {w h mc : Nat} {perm : List Cell}
    (hok : (newGameByCount b w h mc perm).2 = false) :
    (newGameByCount b w h mc perm).1 =
      { width := w, height := h, start_time := 0, finish_time := 0,
        status := GameStatus.NOT_STARTED,
        cells_with_mines := fillMines perm mc, marked_cells := ∅,
        closed_cells := grid w h } ∧ mc ≤ sizeTMul h w := by
  unfold newGameByCount at hok ⊢
  split
  case isTrue hgt =>
    rw [if_pos hgt] at hok
    exact absurd hok (by simp)
  case isFalse hgt => exact ⟨rfl, Nat.le_of_not_lt hgt⟩

theorem newGameByList_threw_iff {b : Board} {w h : Nat} {l : List Cell} :
    (newGameByList b w h l).2 = true ↔
      l.length > sizeTMul h w ∨ ∃ c ∈ l, ¬ isCorrectBoundary w h c := by
  unfold newGameByList
  split
  case isTrue hlen => simpa using Or.inl hlen
  case isFalse hlen =>
    split
    case isTrue hall =>
      simp only [List.all_eq_true, decide_eq_true_eq] at hall
      push_neg at hall
      obtain ⟨c, hc, hnc⟩ := hall
      simpa using Or.inr ⟨c, hc, hnc⟩
    case isFalse hall =>
      simp only [not_not, List.all_eq_true, decide_eq_true_eq] at hall
      constructor
      · intro ht
        exact absurd ht (by simp)
      · rintro (hlen2 | ⟨c, hc, hnc⟩)
        · exact absurd hlen2 hlen
        · exact absurd (hall c hc) hnc

theorem newGameByList_threw_state {b : Board} {w h : Nat} {l : List Cell}
    (ht : (newGameByList b w h l).2 = true) :
    (newGameByList b w h l).1 =
      { width := w, height := h, start_time := 0, finish_time := 0,
        status := GameStatus.NOT_STARTED,
        cells_with_mines := ∅, marked_cells := ∅, closed_cells := ∅ } := by
  unfold newGameByList at ht ⊢
  split
  case isTrue => rfl
  case isFalse hlen =>
    rw [if_neg hlen] at ht
    split
    case isTrue => rfl
    case isFalse hall =>
      rw [if_neg hall] at ht
      exact absurd ht (by simp)

theorem newGameByList_ok {b : Board} {w h : Nat} {l : List Cell}
    (hok : (newGameByList b w h l).2 = false) :
    (newGameByList b w h l).1 =
      { width := w, height := h, start_time := 0, finish_time := 0,
        status := GameStatus.NOT_STARTED,
        cells_with_mines := l.toFinset, marked_cells := ∅,
        closed_cells := grid w h } ∧
      l.length ≤ sizeTMul h w ∧ ∀ c ∈ l, isCorrectBoundary w h c := by
  unfold newGameByList at hok ⊢
  split
  case isTrue hlen =>
    rw [if_pos hlen] at hok
    exact absurd hok (by simp)
  case isFalse hlen =>
    rw [if_neg hlen] at hok
    split
    case isTrue hall =>
      rw [if_pos hall] at hok
      exact absurd hok (by simp)
    case isFalse hall =>
      simp only [not_not, List.all_eq_true, decide_eq_true_eq] at hall
      exact ⟨rfl, Nat.le_of_not_lt hlen, hall⟩

/-! ### Field lemmas for `maybeStart` and case analyses of the calls -/

theorem maybeStart_width {b : Board} {now : Nat} :
    (maybeStart b now).width = b.width := by
  unfold maybeStart startGame; split <;> rfl

theorem maybeStart_height {b : Board} {now : Nat} :
    (maybeStart b now).height = b.height := by
  unfold maybeStart startGame; split <;> rfl

theorem maybeStart_mines {b : Board} {now : Nat} :
    (maybeStart b now).cells_with_mines = b.cells_with_mines := by
  unfold maybeStart startGame; split <;> rfl

theorem maybeStart_marked {b : Board} {now : Nat} :
    (maybeStart b now).marked_cells = b.marked_cells := by
  unfold maybeStart startGame; split <;> rfl

theorem maybeStart_closed {b : Board} {now : Nat} :
    (maybeStart b now).closed_cells = b.closed_cells := by
  unfold maybeStart startGame; split <;> rfl

theorem maybeStart_status {b : Board} {now : Nat} :
    (maybeStart b now).status = GameStatus.IN_PROGRESS ∨
      (maybeStart b now).status = b.status := by
  unfold maybeStart startGame; split
  · exact Or.inl rfl
  · exact Or.inr rfl

theorem status_of_not_finished {b : Board} (hf : ¬ isFinishedGame b) :
    b.status = GameStatus.NOT_STARTED ∨ b.status = GameStatus.IN_PROGRESS := by
  unfold isFinishedGame at hf
  cases hb : b.status
  · exact Or.inl rfl
  · exact Or.inr rfl
  · exact absurd (Or.inl hb) hf
  · exact absurd (Or.inr hb) hf

theorem maybeStart_not_finished {b : Board} {now : Nat} (hf : ¬ isFinishedGame b) :
    (maybeStart b now).status = GameStatus.NOT_STARTED ∨
      (maybeStart b now).status = GameStatus.IN_PROGRESS := by
  rcases @maybeStart_status b now with hs | hs
  · exact Or.inr hs
  · rw [hs]; exact status_of_not_finished hf

theorem openCell_result (b : Board) (c : Cell) (now : Nat) :
    (openCell b c now).1 = b ∨
    (¬ isFinishedGame b ∧ isCorrectBoundary b.width b.height c ∧
      c ∉ b.marked_cells ∧ c ∈ b.closed_cells ∧ c ∈ b.cells_with_mines ∧
      (openCell b c now).1 = defeat (maybeStart b now) now) ∨
    (¬ isFinishedGame b ∧ isCorrectBoundary b.width b.height c ∧
      c ∉ b.marked_cells ∧ c ∈ b.closed_cells ∧ c ∉ b.cells_with_mines ∧
      (openCell b c now).1 = floodOpen (maybeStart b now) c now) := by
  unfold openCell
  split
  · exact Or.inl rfl
  case isFalse hbnd =>
    split
    · exact Or.inl rfl
    case isFalse hno =>
      push_neg at hno
      obtain ⟨hfin, hmk, hcl⟩ := hno
      split
      case isTrue hm =>
        exact Or.inr (Or.inl ⟨hfin, not_not.mp hbnd, hmk, hcl,
          maybeStart_mines ▸ hm, rfl⟩)
      case isFalse hm =>
        exact Or.inr (Or.inr ⟨hfin, not_not.mp hbnd, hmk, hcl,
          maybeStart_mines ▸ hm, rfl⟩)

theorem markCell_result (b : Board) (c : Cell) (now : Nat) :
    (markCell b c now).1 = b ∨
    (¬ isFinishedGame b ∧ isCorrectBoundary b.width b.height c ∧
      ((c ∈ b.marked_cells ∧ (markCell b c now).1 =
          { maybeStart b now with
            marked_cells := (maybeStart b now).marked_cells.erase c }) ∨
        (c ∉ b.marked_cells ∧ (markCell b c now).1 =
          { maybeStart b now with
            marked_cells := insert c (maybeStart b now).marked_cells }))) := by
  unfold markCell
  split
  · exact Or.inl rfl
  case isFalse hbnd =>
    split
    · exact Or.inl rfl
    case isFalse hfin =>
      split
      case isTrue hm =>
        exact Or.inr ⟨hfin, not_not.mp hbnd, Or.inl ⟨maybeStart_marked ▸ hm, rfl⟩⟩
      case isFalse hm =>
        exact Or.inr ⟨hfin, not_not.mp hbnd, Or.inr ⟨maybeStart_marked ▸ hm, rfl⟩⟩

theorem floodLoop_subset {w h : Nat} {mines marked : Finset Cell}
    {q : List Cell} {closed : Finset Cell} :
    floodLoop w h mines marked q closed ⊆ closed :=
  floodLoopF_subset _ _ _

theorem floodLoop_mine_mem {w h : Nat} {mines marked : Finset Cell}
    {q : List Cell} {closed : Finset Cell} {m : Cell}
    (hm : m ∈ mines) (hmc : m ∈ closed) :
    m ∈ floodLoop w h mines marked q closed :=
  floodLoopF_mine_mem _ _ _ _ hm hmc

theorem floodLoop_marked_mem {w h : Nat} {mines marked : Finset Cell}
    {q : List Cell} {closed : Finset Cell} {m : Cell}
    (hm : m ∈ marked) (hmc : m ∈ closed) :
    m ∈ floodLoop w h mines marked q closed :=
  floodLoopF_marked_mem _ _ _ _ hm hmc

/-- The invariant is preserved by the flood-fill phase of `OpenCell`. -/
theorem inv_floodOpen {M : Board} {c : Cell} {now : Nat}
    (hM1 : M.cells_with_mines ⊆ M.closed_cells)
    (hstat : M.status = GameStatus.NOT_STARTED ∨ M.status = GameStatus.IN_PROGRESS)
    (hM2 : M.closed_cells ⊆ grid M.width M.height)
    (hcb : c ∈ grid M.width M.height) (hcm : c ∉ M.cells_with_mines) :
    BoardInv (floodOpen M c now) := by
  have hsub : floodLoop M.width M.height M.cells_with_mines M.marked_cells [c]
      (M.closed_cells.erase c) ⊆ M.closed_cells.erase c := floodLoop_subset
  have hmines : M.cells_with_mines ⊆ floodLoop M.width M.height M.cells_with_mines
      M.marked_cells [c] (M.closed_cells.erase c) := by
    intro m hm
    exact floodLoop_mine_mem hm
      (Finset.mem_erase.mpr ⟨fun he => hcm (he ▸ hm), hM1 hm⟩)
  have hcCF : c ∉ floodLoop M.width M.height M.cells_with_mines M.marked_cells [c]
      (M.closed_cells.erase c) :=
    fun hmem => Finset.not_mem_erase c M.closed_cells (hsub hmem)
  have hgr : floodLoop M.width M.height M.cells_with_mines M.marked_cells [c]
      (M.closed_cells.erase c) ⊆ grid M.width M.height :=
    fun x hx => hM2 (Finset.mem_of_mem_erase (hsub hx))
  have hne : floodLoop M.width M.height M.cells_with_mines M.marked_cells [c]
      (M.closed_cells.erase c) ≠ grid M.width M.height :=
    fun he => hcCF (he ▸ hcb)
  unfold floodOpen victoryCheck
  split
  case isTrue hcard =>
    refine ⟨hmines, hgr, ?_, ?_⟩
    · intro hv
      rcases hstat with hs | hs <;> rw [show ({ M with closed_cells :=
          (floodLoop M.width M.height M.cells_with_mines M.marked_cells [c]
            (M.closed_cells.erase c)) } : Board).status = M.status from rfl, hs] at hv <;>
        exact absurd hv (by decide)
    · intro _
      refine Or.inr (lt_of_le_of_ne (Finset.card_le_card hmines) fun hx => hcard ?_)
      exact hx.symm
  case isFalse hcard =>
    refine ⟨hmines, hgr, ?_, ?_⟩
    · intro _
      exact ⟨not_not.mp hcard, hne⟩
    · intro hns
      rcases hns with hs | hs <;> simp at hs

/-- The invariant is preserved by `OpenCell`. -/
theorem inv_openCell {b : Board} {c : Cell} {now : Nat} (ih : BoardInv b) :
    BoardInv (openCell b c now).1 := by
  obtain ⟨h1, h2, h3, h4⟩ := ih
  rcases openCell_result b c now with heq |
    ⟨hfin, hbnd, hmk, hcl, hm, heq⟩ | ⟨hfin, hbnd, hmk, hcl, hm, heq⟩
  · rw [heq]; exact ⟨h1, h2, h3, h4⟩
  · rw [heq]
    refine ⟨?_, ?_, ?_, ?_⟩
    · show (maybeStart b now).cells_with_mines ⊆ (maybeStart b now).closed_cells
      rw [maybeStart_mines, maybeStart_closed]
      exact h1
    · show (maybeStart b now).closed_cells ⊆
        grid (maybeStart b now).width (maybeStart b now).height
      rw [maybeStart_closed, maybeStart_width, maybeStart_height]
      exact h2
    · intro hv
      simp [defeat] at hv
    · intro hns
      rcases hns with hs | hs <;> simp [defeat] at hs
  · rw [heq]
    refine inv_floodOpen ?_ ?_ ?_ ?_ ?_
    · rw [maybeStart_mines, maybeStart_closed]; exact h1
    · exact maybeStart_not_finished hfin
    · rw [maybeStart_closed, maybeStart_width, maybeStart_height]; exact h2
    · rw [maybeStart_width, maybeStart_height]; exact mem_grid.mpr hbnd
    · rw [maybeStart_mines]; exact hm

/-- The invariant is preserved by `MarkCell`. -/
theorem inv_markCell {b : Board} {c : Cell} {now : Nat} (ih : BoardInv b) :
    BoardInv (markCell b c now).1 := by
  obtain ⟨h1, h2, h3, h4⟩ := ih
  rcases markCell_result b c now with heq | ⟨hfin, hbnd, hcase⟩
  · rw [heq]; exact ⟨h1, h2, h3, h4⟩
  · have hstat := @maybeStart_not_finished b now hfin
    have hb4 := h4 (status_of_not_finished hfin)
    rcases hcase with ⟨hm, heq⟩ | ⟨hm, heq⟩ <;> rw [heq] <;> refine ⟨?_, ?_, ?_, ?_⟩
    · show (maybeStart b now).cells_with_mines ⊆ (maybeStart b now).closed_cells
      rw [maybeStart_mines, maybeStart_closed]; exact h1
    · show (maybeStart b now).closed_cells ⊆
        grid (maybeStart b now).width (maybeStart b now).height
      rw [maybeStart_closed, maybeStart_width, maybeStart_height]; exact h2
    · intro hv
      have hv' : (maybeStart b now).status = GameStatus.VICTORY := hv
      rcases hstat with hs | hs <;> rw [hv'] at hs <;> exact absurd hs (by decide)
    · intro _
      show (maybeStart b now).closed_cells =
          grid (maybeStart b now).width (maybeStart b now).height ∨
        (maybeStart b now).cells_with_mines.card < (maybeStart b now).closed_cells.card
      rw [maybeStart_closed, maybeStart_width, maybeStart_height, maybeStart_mines]
      exact hb4
    · show (maybeStart b now).cells_with_mines ⊆ (maybeStart b now).closed_cells
      rw [maybeStart_mines, maybeStart_closed]; exact h1
    · show (maybeStart b now).closed_cells ⊆
        grid (maybeStart b now).width (maybeStart b now).height
      rw [maybeStart_closed, maybeStart_width, maybeStart_height]; exact h2
    · intro hv
      have hv' : (maybeStart b now).status = GameStatus.VICTORY := hv
      rcases hstat with hs | hs <;> rw [hv'] at hs <;> exact absurd hs (by decide)
    · intro _
      show (maybeStart b now).closed_cells =
          grid (maybeStart b now).width (maybeStart b now).height ∨
        (maybeStart b now).cells_with_mines.card < (maybeStart b now).closed_cells.card
      rw [maybeStart_closed, maybeStart_width, maybeStart_height, maybeStart_mines]
      exact hb4

/-- Every reachable board state satisfies the invariant. -/
theorem reachable_inv {b : Board} (hb : Reachable b) : BoardInv b := by
  induction hb with
  | newList b w h l hok =>
    obtain ⟨heq, _, hall⟩ := newGameByList_ok hok
    rw [heq]
    refine ⟨?_, Finset.Subset.refl _, ?_, fun _ => Or.inl rfl⟩
    · intro m hm
      exact mem_grid.mpr (hall m (List.mem_toFinset.mp hm))
    · intro hv
      simp at hv
  | newCount b w h mc perm hperm hok =>
    obtain ⟨heq, _⟩ := newGameByCount_ok hok
    rw [heq]
    refine ⟨?_, Finset.Subset.refl _, ?_, fun _ => Or.inl rfl⟩
    · intro m hm
      unfold fillMines at hm
      split at hm
      · exact absurd hm (Finset.not_mem_empty _)
      · have hp : m ∈ perm := List.mem_of_mem_take (List.mem_toFinset.mp hm)
        exact mem_grid.mpr (mem_gridList.mp (hperm.mem_iff.mp hp))
    · intro hv
      simp at hv
  | openStep b c now hb ih => exact inv_openCell ih
  | markStep b c now hb ih => exact inv_markCell ih

/-! ### Further helper lemmas -/

theorem floodOpen_closed {M : Board} {c : Cell} {now : Nat} :
    (floodOpen M c now).closed_cells =
      floodLoop M.width M.height M.cells_with_mines M.marked_cells [c]
        (M.closed_cells.erase c) := by
  unfold floodOpen victoryCheck
  split <;> rfl

theorem victoryCheck_status_eq {B : Board} {now : Nat}
    (hcard : B.closed_cells.card = B.cells_with_mines.card) :
    (victoryCheck B now).status = GameStatus.VICTORY := by
  unfold victoryCheck
  rw [if_neg (not_not_intro hcard)]

theorem markCell_width {b : Board} {c : Cell} {now : Nat} :
    (markCell b c now).1.width = b.width := by
  rcases markCell_result b c now with heq | ⟨_, _, ⟨_, heq⟩ | ⟨_, heq⟩⟩ <;> rw [heq]
  · exact maybeStart_width
  · exact maybeStart_width

theorem markCell_height {b : Board} {c : Cell} {now : Nat} :
    (markCell b c now).1.height = b.height := by
  rcases markCell_result b c now with heq | ⟨_, _, ⟨_, heq⟩ | ⟨_, heq⟩⟩ <;> rw [heq]
  · exact maybeStart_height
  · exact maybeStart_height

theorem markCell_marked_eq {b : Board} {c : Cell} {now : Nat}
    (hfin : ¬ isFinishedGame b) (hbnd : isCorrectBoundary b.width b.height c) :
    (markCell b c now).1.marked_cells =
      if c ∈ b.marked_cells then b.marked_cells.erase c
      else insert c b.marked_cells := by
  unfold markCell
  rw [if_neg (not_not_intro hbnd), if_neg hfin]
  split
  case isTrue hm =>
    rw [if_pos (maybeStart_marked ▸ hm)]
    show (maybeStart b now).marked_cells.erase c = b.marked_cells.erase c
    rw [maybeStart_marked]
  case isFalse hm =>
    rw [if_neg fun hx => hm (by rw [maybeStart_marked]; exact hx)]
    show insert c (maybeStart b now).marked_cells = insert c b.marked_cells
    rw [maybeStart_marked]

theorem markCell_status_eq {b : Board} {c : Cell} {now : Nat}
    (hfin : ¬ isFinishedGame b) (hbnd : isCorrectBoundary b.width b.height c) :
    (markCell b c now).1.status = (maybeStart b now).status := by
  unfold markCell
  rw [if_neg (not_not_intro hbnd), if_neg hfin]
  split <;> rfl

theorem floodLoop_zero_mines_empty {w h : Nat} {s : Cell} (hs : s ∈ grid w h) :
    floodLoop w h ∅ ∅ [s] ((grid w h).erase s) = ∅ := by
  unfold floodLoop
  have hcomplete := @floodLoopF_complete w h
    ([s].length + ((grid w h).erase s).card) [s] ((grid w h).erase s) le_rfl
    (fun x hx => by
      rw [List.mem_singleton.mp hx]
      exact Finset.not_mem_erase s _)
    (fun x hxg hxe => by
      by_cases hxs : x = s
      · exact Or.inl (by rw [hxs]; exact List.mem_singleton_self s)
      · exact absurd (Finset.mem_erase.mpr ⟨hxs, hxg⟩) hxe)
  have hsub : floodLoopF w h ∅ ∅ ([s].length + ((grid w h).erase s).card) [s]
      ((grid w h).erase s) ⊆ (grid w h).erase s := floodLoopF_subset _ _ _
  have hsF : s ∉ floodLoopF w h ∅ ∅ ([s].length + ((grid w h).erase s).card) [s]
      ((grid w h).erase s) :=
    fun hmem => Finset.not_mem_erase s _ (hsub hmem)
  have hall := grid_connected hcomplete s hs hsF
  refine Finset.eq_empty_iff_forall_not_mem.mpr fun x hx => ?_
  exact hall x (Finset.mem_of_mem_erase (hsub hx)) hx

theorem toCell_mem_grid {w h : Nat} {p : Int × Int} (hp : inBoundsI w h p) :
    toCell p ∈ grid w h := by
  obtain ⟨h1, h2, h3, h4⟩ := hp
  refine mem_grid.mpr ⟨?_, ?_⟩
  · show p.1.toNat < w
    omega
  · show p.2.toNat < h
    omega

theorem mem_offsets_of_small {a b : Int} (ha : a.natAbs ≤ 1) (hb : b.natAbs ≤ 1) :
    (a, b) ∈ offsets := by
  have ha' : a = -1 ∨ a = 0 ∨ a = 1 := by omega
  have hb' : b = -1 ∨ b = 0 ∨ b = 1 := by omega
  rcases ha' with rfl | rfl | rfl <;> rcases hb' with rfl | rfl | rfl <;> simp [offsets]

theorem offsets_small {d : Int × Int} (hd : d ∈ offsets) :
    d.1.natAbs ≤ 1 ∧ d.2.natAbs ≤ 1 := by
  fin_cases hd <;> simp

/-- The engine's neighbour count agrees with the specification count for
non-mine cells (shared workhorse for C4). -/
theorem calcMinesNear_eq_spec {w h : Nat} {mines : Finset Cell} {c : Cell}
    (hcm : c ∉ mines) :
    calcMinesNear w h mines c = specNeighborMineCount w h mines c := by
  unfold calcMinesNear specNeighborMineCount
  rw [List.countP_eq_length_filter]
  have hnodup : (offsets.filter fun d =>
      decide (inBoundsI w h (offAt c d) ∧ toCell (offAt c d) ∈ mines)).Nodup :=
    List.Nodup.filter _ (by decide)
  rw [← List.toFinset_card_of_nodup hnodup]
  refine Finset.card_bij (fun d _ => toCell (offAt c d)) ?_ ?_ ?_
  · intro d hd
    rw [List.mem_toFinset, List.mem_filter, decide_eq_true_eq] at hd
    have hsm := offsets_small hd.1
    have hmem := hd.2.2
    have hx0 : (0 : Int) ≤ (c.x : Int) + d.1 := hd.2.1.1
    have hxw : (c.x : Int) + d.1 < (w : Int) := hd.2.1.2.1
    have hy0 : (0 : Int) ≤ (c.y : Int) + d.2 := hd.2.1.2.2.1
    have hyh : (c.y : Int) + d.2 < (h : Int) := hd.2.1.2.2.2
    refine Finset.mem_filter.mpr ⟨toCell_mem_grid hd.2.1, ?_, ?_, ?_, hmem⟩
    · intro he
      exact hcm (he ▸ hmem)
    · show ((((c.x : Int) + d.1).toNat : Int) - (c.x : Int)).natAbs ≤ 1
      omega
    · show ((((c.y : Int) + d.2).toNat : Int) - (c.y : Int)).natAbs ≤ 1
      omega
  · intro d1 hd1 d2 hd2 he
    rw [List.mem_toFinset, List.mem_filter, decide_eq_true_eq] at hd1 hd2
    have h10 : (0 : Int) ≤ (c.x : Int) + d1.1 := hd1.2.1.1
    have h12 : (0 : Int) ≤ (c.y : Int) + d1.2 := hd1.2.1.2.2.1
    have h20 : (0 : Int) ≤ (c.x : Int) + d2.1 := hd2.2.1.1
    have h22 : (0 : Int) ≤ (c.y : Int) + d2.2 := hd2.2.1.2.2.1
    have hx : ((c.x : Int) + d1.1).toNat = ((c.x : Int) + d2.1).toNat :=
      congrArg Cell.x he
    have hy : ((c.y : Int) + d1.2).toNat = ((c.y : Int) + d2.2).toNat :=
      congrArg Cell.y he
    have he1 : d1.1 = d2.1 := by omega
    have he2 : d1.2 = d2.2 := by omega
    exact Prod.ext he1 he2
  · intro n hn
    rw [Finset.mem_filter] at hn
    obtain ⟨hng, hne, hdx, hdy, hnm⟩ := hn
    obtain ⟨hnx, hny⟩ := mem_grid.mp hng
    refine ⟨((n.x : Int) - (c.x : Int), (n.y : Int) - (c.y : Int)), ?_, ?_⟩
    · rw [List.mem_toFinset, List.mem_filter, decide_eq_true_eq]
      refine ⟨mem_offsets_of_small hdx hdy, ⟨?_, ?_, ?_, ?_⟩, ?_⟩
      · show (0 : Int) ≤ (c.x : Int) + ((n.x : Int) - (c.x : Int))
        omega
      · show (c.x : Int) + ((n.x : Int) - (c.x : Int)) < (w : Int)
        omega
      · show (0 : Int) ≤ (c.y : Int) + ((n.y : Int) - (c.y : Int))
        omega
      · show (c.y : Int) + ((n.y : Int) - (c.y : Int)) < (h : Int)
        omega
      · have hx : ((c.x : Int) + ((n.x : Int) - (c.x : Int))).toNat = n.x := by omega
        have hy : ((c.y : Int) + ((n.y : Int) - (c.y : Int))).toNat = n.y := by omega
        show (⟨((c.x : Int) + ((n.x : Int) - (c.x : Int))).toNat,
          ((c.y : Int) + ((n.y : Int) - (c.y : Int))).toNat⟩ : Cell) ∈ mines
        rw [hx, hy]
        exact hnm
    · have hx : ((c.x : Int) + ((n.x : Int) - (c.x : Int))).toNat = n.x := by omega
      have hy : ((c.y : Int) + ((n.y : Int) - (c.y : Int))).toNat = n.y := by omega
      show (⟨((c.x : Int) + ((n.x : Int) - (c.x : Int))).toNat,
        ((c.y : Int) + ((n.y : Int) - (c.y : Int))).toNat⟩ : Cell) = n
      rw [hx, hy]

theorem toString_data_of_digit {n : Nat} (hn : n ≤ 9) (h0 : n ≠ 0) :
    (toString n).data = [Nat.digitChar n] := by
  interval_cases n <;> first | exact absurd rfl h0 | rfl

theorem cellString_data {b : Board} {c : Cell} :
    (cellString b c).data = [specRenderChar b c] := by
  unfold cellString specRenderChar
  split
  · rfl
  · split
    · rfl
    · split
      · rfl
      · split
        case isTrue hne => exact toString_data_of_digit calcMinesNear_le_nine hne
        case isFalse => rfl

theorem renderRow_foldl_data (b : Board) (y : Nat) :
    ∀ (L : List Nat) (s : String),
      (L.foldl (fun s x => s ++ cellString b ⟨x, y⟩) s).data =
        s.data ++ L.map fun x => specRenderChar b ⟨x, y⟩ := by
  intro L
  induction L with
  | nil => intro s; simp
  | cons a L ih =>
    intro s
    rw [List.foldl_cons, ih, List.map_cons]
    rw [String.data_append, cellString_data]
    simp

theorem renderRow_data {b : Board} {y : Nat} :
    (renderRow b y).data = (List.range b.width).map fun x => specRenderChar b ⟨x, y⟩ := by
  unfold renderRow
  rw [renderRow_foldl_data]
  rfl

/-! ### The claims -/

/-- C1, counterexample to the claim as stated: on the 1×1 board whose
only cell is a mine (a successful `NewGame`), after one `MarkCell` call
the closed-cell count equals the mine count and the status is not
`DEFEAT`, yet `GetGameStatus()` is not `VICTORY` (it is `IN_PROGRESS`):
the right-to-left direction of the claimed equivalence fails. -/
theorem C1_counterexample :
    (newGameByList initBoard 1 1 [⟨0, 0⟩]).2 = false ∧
    (markCell (newGameByList initBoard 1 1 [⟨0, 0⟩]).1 ⟨0, 0⟩ 5).1.closed_cells.card =
      (markCell (newGameByList initBoard 1 1 [⟨0, 0⟩]).1 ⟨0, 0⟩ 5).1.cells_with_mines.card ∧
    getGameStatus (markCell (newGameByList initBoard 1 1 [⟨0, 0⟩]).1 ⟨0, 0⟩ 5).1 ≠
      GameStatus.DEFEAT ∧
    getGameStatus (markCell (newGameByList initBoard 1 1 [⟨0, 0⟩]).1 ⟨0, 0⟩ 5).1 ≠
      GameStatus.VICTORY := by
  refine ⟨by decide, by decide, by decide, by decide⟩

/-- C1 (amended): for every board produced by a successful `NewGame` and
any sequence of `OpenCell`/`MarkCell` calls, `GetGameStatus()` returns
`VICTORY` iff the closed-cell count equals the mine count, the status is
not `DEFEAT`, **and at least one cell has been opened** (the closed set
differs from the full grid).  The extra conjunct is forced by the
counterexample: `VictoryCheck` only runs at the end of a flood-fill
`OpenCell`, so a board whose cells are all mines is never promoted to
`VICTORY`. -/
theorem C1_victory_iff_amended {b : Board} (hb : Reachable b) :
    getGameStatus b = GameStatus.VICTORY ↔
      (b.closed_cells.card = b.cells_with_mines.card ∧
       getGameStatus b ≠ GameStatus.DEFEAT ∧
       b.closed_cells ≠ grid b.width b.height) := by
  obtain ⟨h1, h2, h3, h4⟩ := reachable_inv hb
  unfold getGameStatus
  constructor
  · intro hv
    obtain ⟨hc, hg⟩ := h3 hv
    refine ⟨hc, ?_, hg⟩
    rw [hv]
    decide
  · rintro ⟨hc, hd, hg⟩
    by_contra hnv
    have hstat : b.status = GameStatus.NOT_STARTED ∨
        b.status = GameStatus.IN_PROGRESS := by
      cases hs : b.status
      · exact Or.inl rfl
      · exact Or.inr rfl
      · exact absurd hs hnv
      · exact absurd hs hd
    rcases h4 hstat with hcl | hlt
    · exact hg hcl
    · omega

/-- Witness for C1's amended theorem at a concrete reachable board. -/
theorem C1_victory_iff_amended_witness :
    getGameStatus (newGameByList initBoard 2 2 [⟨0, 0⟩]).1 = GameStatus.VICTORY ↔
      ((newGameByList initBoard 2 2 [⟨0, 0⟩]).1.closed_cells.card =
        (newGameByList initBoard 2 2 [⟨0, 0⟩]).1.cells_with_mines.card ∧
       getGameStatus (newGameByList initBoard 2 2 [⟨0, 0⟩]).1 ≠ GameStatus.DEFEAT ∧
       (newGameByList initBoard 2 2 [⟨0, 0⟩]).1.closed_cells ≠
         grid (newGameByList initBoard 2 2 [⟨0, 0⟩]).1.width
           (newGameByList initBoard 2 2 [⟨0, 0⟩]).1.height) :=
  C1_victory_iff_amended (Reachable.newList initBoard 2 2 [⟨0, 0⟩] (by decide))

/-- C2: opening an in-bounds, unflagged, still-closed mine cell on an
unfinished board sets the status to `DEFEAT` and the finish time to the
current time while leaving the mine, flag and closed sets untouched; and
once the game is finished, `OpenCell` and `MarkCell` on any in-bounds
cell leave the whole board state unchanged. -/
theorem C2_open_mine_defeats_and_terminal_frozen (b : Board) (c : Cell) (now : Nat) :
    ((b.status = GameStatus.NOT_STARTED ∨ b.status = GameStatus.IN_PROGRESS) →
      isCorrectBoundary b.width b.height c → c ∉ b.marked_cells →
      c ∈ b.closed_cells → c ∈ b.cells_with_mines →
      ((openCell b c now).1.status = GameStatus.DEFEAT ∧
       (openCell b c now).1.finish_time = now ∧
       (openCell b c now).1.cells_with_mines = b.cells_with_mines ∧
       (openCell b c now).1.marked_cells = b.marked_cells ∧
       (openCell b c now).1.closed_cells = b.closed_cells)) ∧
    ((b.status = GameStatus.VICTORY ∨ b.status = GameStatus.DEFEAT) →
      isCorrectBoundary b.width b.height c →
      (openCell b c now).1 = b ∧ (markCell b c now).1 = b) := by
  constructor
  · intro hs hbnd hmk hcl hm
    have hfin : ¬ isFinishedGame b := by
      unfold isFinishedGame
      rcases hs with hs | hs <;> rw [hs] <;> simp
    unfold openCell
    rw [if_neg (not_not_intro hbnd)]
    rw [if_neg (by push_neg; exact ⟨hfin, hmk, hcl⟩)]
    rw [if_pos (show c ∈ (maybeStart b now).cells_with_mines by
      rw [maybeStart_mines]; exact hm)]
    exact ⟨rfl, rfl, maybeStart_mines, maybeStart_marked, maybeStart_closed⟩
  · intro hs hbnd
    have hfin : isFinishedGame b := hs
    constructor
    · unfold openCell
      rw [if_neg (not_not_intro hbnd), if_pos (Or.inl hfin)]
    · unfold markCell
      rw [if_neg (not_not_intro hbnd), if_pos hfin]

/-- Witness for C2 at concrete boards: opening the mine of a fresh 2×2
board defeats it, and a further open on the defeated board is the
identity. -/
theorem C2_open_mine_defeats_and_terminal_frozen_witness :
    (openCell (newGameByList initBoard 2 2 [⟨0, 0⟩]).1 ⟨0, 0⟩ 7).1.status =
      GameStatus.DEFEAT ∧
    (openCell (openCell (newGameByList initBoard 2 2 [⟨0, 0⟩]).1 ⟨0, 0⟩ 7).1
      ⟨1, 0⟩ 9).1 = (openCell (newGameByList initBoard 2 2 [⟨0, 0⟩]).1 ⟨0, 0⟩ 7).1 :=
  ⟨((C2_open_mine_defeats_and_terminal_frozen
      (newGameByList initBoard 2 2 [⟨0, 0⟩]).1 ⟨0, 0⟩ 7).1
      (Or.inl (by decide)) (by decide) (by decide) (by decide) (by decide)).1,
   ((C2_open_mine_defeats_and_terminal_frozen
      (openCell (newGameByList initBoard 2 2 [⟨0, 0⟩]).1 ⟨0, 0⟩ 7).1 ⟨1, 0⟩ 9).2
      (Or.inr (by decide)) (by decide)).1⟩

/-- C3, counterexample to the claim as stated: a failing `NewGame` does
not leave the board as it was.  Starting from a successfully configured
3×3 board, `NewGame(1, 1, 2)` throws `ConfigError` (2 mines > 1 cell)
but has already reset the board and installed the new 1×1 boundary, so
the state after the failed call differs from the state before it. -/
theorem C3_counterexample :
    (newGameByCount (newGameByList initBoard 3 3 []).1 1 1 2 []).2 = true ∧
    (newGameByCount (newGameByList initBoard 3 3 []).1 1 1 2 []).1 ≠
      (newGameByList initBoard 3 3 []).1 := by
  refine ⟨by decide, by decide⟩

/-- C3 (amended): when either `NewGame` overload fails with
`ConfigError`, the board is **not** left as it was before the call: it
is left in the freshly reset state with the new boundary installed —
width and height set to the new arguments, all three cell sets empty,
status `NOT_STARTED`, and both timestamps zero (`ResetValues` and
`SetNewBoundary` run before the failing check). -/
theorem C3_configError_resets_board (b : Board) (w h mc : Nat)
    (perm l : List Cell) :
    ((newGameByCount b w h mc perm).2 = true →
      (newGameByCount b w h mc perm).1 =
        { width := w, height := h, start_time := 0, finish_time := 0,
          status := GameStatus.NOT_STARTED,
          cells_with_mines := ∅, marked_cells := ∅, closed_cells := ∅ }) ∧
    ((newGameByList b w h l).2 = true →
      (newGameByList b w h l).1 =
        { width := w, height := h, start_time := 0, finish_time := 0,
          status := GameStatus.NOT_STARTED,
          cells_with_mines := ∅, marked_cells := ∅, closed_cells := ∅ }) :=
  ⟨newGameByCount_threw_state, newGameByList_threw_state⟩

/-- Witness for C3's amended theorem at two concrete failing calls: an
ordinary over-capacity call, and a call whose capacity check only fails
because the `size_t` product `height_ * width_` wraps to `0`. -/
theorem C3_configError_resets_board_witness :
    (newGameByCount initBoard 2 2 9 []).1 =
      { width := 2, height := 2, start_time := 0, finish_time := 0,
        status := GameStatus.NOT_STARTED,
        cells_with_mines := ∅, marked_cells := ∅, closed_cells := ∅ } ∧
    (newGameByCount initBoard (2 ^ 32) (2 ^ 32) 2 []).1 =
      { width := 2 ^ 32, height := 2 ^ 32, start_time := 0, finish_time := 0,
        status := GameStatus.NOT_STARTED,
        cells_with_mines := ∅, marked_cells := ∅, closed_cells := ∅ } :=
  ⟨(C3_configError_resets_board initBoard 2 2 9 [] []).1 (by decide),
   (C3_configError_resets_board initBoard (2 ^ 32) (2 ^ 32) 2 [] []).1 (by decide)⟩

/-- C9: on an unfinished board, `MarkCell` on an in-bounds cell toggles
that cell's membership in the flagged set, and two consecutive
`MarkCell` calls on the same cell restore the flagged set exactly. -/
theorem C9_markCell_toggle (b : Board) (c : Cell) (t1 t2 : Nat)
    (hs : b.status ≠ GameStatus.VICTORY ∧ b.status ≠ GameStatus.DEFEAT)
    (hbnd : isCorrectBoundary b.width b.height c) :
    ((markCell b c t1).1.marked_cells =
      if c ∈ b.marked_cells then b.marked_cells.erase c
      else insert c b.marked_cells) ∧
    (markCell (markCell b c t1).1 c t2).1.marked_cells = b.marked_cells := by
  have hfin : ¬ isFinishedGame b := fun hf => hf.elim hs.1 hs.2
  have e1 := @markCell_marked_eq b c t1 hfin hbnd
  refine ⟨e1, ?_⟩
  have hfin1 : ¬ isFinishedGame (markCell b c t1).1 := by
    unfold isFinishedGame
    rw [markCell_status_eq hfin hbnd]
    rcases @maybeStart_not_finished b t1 hfin with hs' | hs' <;>
      rw [hs'] <;> simp
  have hbnd1 : isCorrectBoundary (markCell b c t1).1.width
      (markCell b c t1).1.height c := by
    rw [markCell_width, markCell_height]
    exact hbnd
  rw [@markCell_marked_eq (markCell b c t1).1 c t2 hfin1 hbnd1, e1]
  by_cases hm : c ∈ b.marked_cells
  · rw [if_pos hm, if_neg (Finset.not_mem_erase c _)]
    exact Finset.insert_erase hm
  · rw [if_neg hm, if_pos (Finset.mem_insert_self c _)]
    exact Finset.erase_insert hm

/-- Witness for C9 at a concrete board and cell. -/
theorem C9_markCell_toggle_witness :
    ((markCell (newGameByList initBoard 3 3 [⟨2, 2⟩]).1 ⟨1, 0⟩ 4).1.marked_cells =
      if (⟨1, 0⟩ : Cell) ∈ (newGameByList initBoard 3 3 [⟨2, 2⟩]).1.marked_cells then
        (newGameByList initBoard 3 3 [⟨2, 2⟩]).1.marked_cells.erase ⟨1, 0⟩
      else insert ⟨1, 0⟩ (newGameByList initBoard 3 3 [⟨2, 2⟩]).1.marked_cells) ∧
    (markCell (markCell (newGameByList initBoard 3 3 [⟨2, 2⟩]).1 ⟨1, 0⟩ 4).1
      ⟨1, 0⟩ 6).1.marked_cells = (newGameByList initBoard 3 3 [⟨2, 2⟩]).1.marked_cells :=
  C9_markCell_toggle (newGameByList initBoard 3 3 [⟨2, 2⟩]).1 ⟨1, 0⟩ 4 6
    ⟨by decide, by decide⟩ (by decide)

/-- C10: in every reachable board state the mine set is a subset of the
closed set — setup closes every grid cell, opening a mine stops at
`DEFEAT` before any erase, and the flood fill only erases neighbours of
zero-count cells, which are never mines. -/
theorem C10_mines_stay_closed {b : Board} (hb : Reachable b) :
    b.cells_with_mines ⊆ b.closed_cells :=
  (reachable_inv hb).1

/-- Witness for C10 after a concrete open on a 3×3 board. -/
theorem C10_mines_stay_closed_witness :
    (openCell (newGameByList initBoard 3 3 [⟨1, 1⟩]).1 ⟨0, 0⟩ 7).1.cells_with_mines ⊆
      (openCell (newGameByList initBoard 3 3 [⟨1, 1⟩]).1 ⟨0, 0⟩ 7).1.closed_cells :=
  C10_mines_stay_closed (Reachable.openStep _ ⟨0, 0⟩ 7
    (Reachable.newList initBoard 3 3 [⟨1, 1⟩] (by decide)))

/-- C4: for every in-bounds non-mine cell, `CalcMinesNear` — the count
used by `OpenCell`'s flood fill and by `RenderField` — equals the number
of mine cells among the cell's at-most-8 in-bounds adjacent cells
(out-of-grid neighbours contribute nothing, including at the `x = 0`
and `y = 0` edges, where the `size_t` wrap-around makes the candidate
fail the bounds check). -/
theorem C4_calcMinesNear_correct {w h : Nat} {mines : Finset Cell} {c : Cell}
    (hbnd : isCorrectBoundary w h c) (hcm : c ∉ mines) :
    calcMinesNear w h mines c = specNeighborMineCount w h mines c :=
  calcMinesNear_eq_spec hcm

/-- Witness for C4 on a concrete corner cell next to a diagonal mine. -/
theorem C4_calcMinesNear_correct_witness :
    calcMinesNear 3 3 {⟨1, 1⟩} ⟨0, 0⟩ = specNeighborMineCount 3 3 {⟨1, 1⟩} ⟨0, 0⟩ :=
  C4_calcMinesNear_correct (by decide) (by decide)

/-- C5: on a freshly set-up board of positive width and height with no
mines, a single `OpenCell` on any in-bounds cell flood-fills the whole
grid (the closed set becomes empty) and the status becomes `VICTORY`. -/
theorem C5_zero_mines_flood_opens_all {b : Board} {now : Nat} {c : Cell}
    (hw : 0 < b.width) (hh : 0 < b.height)
    (hmines : b.cells_with_mines = ∅) (hmarked : b.marked_cells = ∅)
    (hclosed : b.closed_cells = grid b.width b.height)
    (hstat : b.status = GameStatus.NOT_STARTED)
    (hbnd : isCorrectBoundary b.width b.height c) :
    (openCell b c now).1.closed_cells = ∅ ∧
    (openCell b c now).1.status = GameStatus.VICTORY := by
  have hfin : ¬ isFinishedGame b := by
    unfold isFinishedGame
    rw [hstat]
    simp
  have hcg : c ∈ grid b.width b.height := mem_grid.mpr hbnd
  have hccl : c ∈ b.closed_cells := by rw [hclosed]; exact hcg
  have hcmk : c ∉ b.marked_cells := by rw [hmarked]; exact Finset.not_mem_empty c
  unfold openCell
  rw [if_neg (not_not_intro hbnd)]
  rw [if_neg (by push_neg; exact ⟨hfin, hcmk, hccl⟩)]
  rw [if_neg (show c ∉ (maybeStart b now).cells_with_mines by
    rw [maybeStart_mines, hmines]; exact Finset.not_mem_empty c)]
  have hCFeq : floodLoop (maybeStart b now).width (maybeStart b now).height
      (maybeStart b now).cells_with_mines (maybeStart b now).marked_cells [c]
      ((maybeStart b now).closed_cells.erase c) = ∅ := by
    rw [maybeStart_width, maybeStart_height, maybeStart_mines, maybeStart_marked,
      maybeStart_closed, hmines, hmarked, hclosed]
    exact floodLoop_zero_mines_empty hcg
  constructor
  · rw [show ((floodOpen (maybeStart b now) c now, false)).1 =
      floodOpen (maybeStart b now) c now from rfl, floodOpen_closed]
    exact hCFeq
  · show (floodOpen (maybeStart b now) c now).status = GameStatus.VICTORY
    unfold floodOpen
    apply victoryCheck_status_eq
    show (floodLoop (maybeStart b now).width (maybeStart b now).height
        (maybeStart b now).cells_with_mines (maybeStart b now).marked_cells [c]
        ((maybeStart b now).closed_cells.erase c)).card =
      (maybeStart b now).cells_with_mines.card
    rw [hCFeq, maybeStart_mines, hmines]

/-- Witness for C5 on a concrete 2×2 zero-mine board. -/
theorem C5_zero_mines_flood_opens_all_witness :
    (openCell (newGameByCount initBoard 2 2 0 (gridList 2 2)).1 ⟨0, 0⟩ 7).1.closed_cells
      = ∅ ∧
    (openCell (newGameByCount initBoard 2 2 0 (gridList 2 2)).1 ⟨0, 0⟩ 7).1.status =
      GameStatus.VICTORY :=
  C5_zero_mines_flood_opens_all (by decide) (by decide) (by decide) (by decide)
    (by decide) (by decide) (by decide)

/-- C7: opening a flagged in-bounds cell is a complete no-op, and no
`OpenCell` call ever removes a flagged cell from the closed set (the
flood fill skips flagged cells). -/
theorem C7_flagged_cells_protected (b : Board) (now : Nat) :
    (∀ c, isCorrectBoundary b.width b.height c → c ∈ b.marked_cells →
      (openCell b c now).1 = b) ∧
    (∀ c m, m ∈ b.marked_cells → m ∈ b.closed_cells →
      m ∈ (openCell b c now).1.closed_cells) := by
  constructor
  · intro c hbnd hm
    unfold openCell
    rw [if_neg (not_not_intro hbnd), if_pos (Or.inr (Or.inl hm))]
  · intro c m hm hmc
    rcases openCell_result b c now with heq |
      ⟨_, _, _, _, _, heq⟩ | ⟨hfin, hbnd, hmk, hcl, hmine, heq⟩ <;> rw [heq]
    · exact hmc
    · show m ∈ (maybeStart b now).closed_cells
      rw [maybeStart_closed]
      exact hmc
    · rw [floodOpen_closed]
      apply floodLoop_marked_mem
      · rw [maybeStart_marked]
        exact hm
      · refine Finset.mem_erase.mpr ⟨fun he => hmk (he ▸ hm), ?_⟩
        rw [maybeStart_closed]
        exact hmc

/-- Witness for C7: marking a cell and then opening it is a no-op, and
the flagged cell survives an open elsewhere. -/
theorem C7_flagged_cells_protected_witness :
    (openCell (markCell (newGameByList initBoard 3 3 [⟨1, 1⟩]).1 ⟨2, 2⟩ 3).1 ⟨2, 2⟩ 5).1
      = (markCell (newGameByList initBoard 3 3 [⟨1, 1⟩]).1 ⟨2, 2⟩ 3).1 ∧
    (⟨2, 2⟩ : Cell) ∈
      (openCell (markCell (newGameByList initBoard 3 3 [⟨1, 1⟩]).1 ⟨2, 2⟩ 3).1
        ⟨0, 0⟩ 5).1.closed_cells :=
  ⟨(C7_flagged_cells_protected
      (markCell (newGameByList initBoard 3 3 [⟨1, 1⟩]).1 ⟨2, 2⟩ 3).1 5).1
      ⟨2, 2⟩ (by decide) (by decide),
   (C7_flagged_cells_protected
      (markCell (newGameByList initBoard 3 3 [⟨1, 1⟩]).1 ⟨2, 2⟩ 3).1 5).2
      ⟨0, 0⟩ ⟨2, 2⟩ (by decide) (by decide)⟩

/-- C8, counterexample to the claim as stated: the capacity check
compares against `height_ * width_` computed in `size_t`, which wraps.
At `width = height = 2^32` the wrapped capacity is `0`, so
`NewGame(2^32, 2^32, 1)` throws `ConfigError` although
`1 ≤ width*height`, and likewise the explicit-list overload throws on
the one-element in-bounds list `[(0,0)]` although its size does not
exceed `width*height` and no coordinate is out of bounds: both "fails
exactly when" equivalences of the claim are false on the code. -/
theorem C8_counterexample :
    (newGameByCount initBoard (2 ^ 32) (2 ^ 32) 1 []).2 = true ∧
    ¬ (1 > 2 ^ 32 * 2 ^ 32) ∧
    (newGameByList initBoard (2 ^ 32) (2 ^ 32) [⟨0, 0⟩]).2 = true ∧
    ¬ (([(⟨0, 0⟩ : Cell)]).length > 2 ^ 32 * 2 ^ 32) ∧
    isCorrectBoundary (2 ^ 32) (2 ^ 32) ⟨0, 0⟩ :=
  ⟨by decide, by decide, by decide, by decide, by decide⟩

/-- C8 (amended): the mine-count overload fails with `ConfigError`
exactly when the requested count exceeds the `size_t` product
`height*width` (the product reduced modulo `2^64`, which equals
`width*height` whenever that fits in 64 bits); the explicit-list
overload fails exactly when the list's size exceeds that wrapped
product or some listed coordinate is out of bounds; a successful list
setup uses exactly the listed cells as mines (duplicates collapse in
the set); and after every successful setup the mine count is still at
most the true `width*height`. -/
theorem C8_newGame_validation (b : Board) (w h mc : Nat) (perm l : List Cell) :
    ((newGameByCount b w h mc perm).2 = true ↔ mc > sizeTMul h w) ∧
    ((newGameByList b w h l).2 = true ↔
      l.length > sizeTMul h w ∨ ∃ c ∈ l, ¬ isCorrectBoundary w h c) ∧
    ((newGameByList b w h l).2 = false →
      (newGameByList b w h l).1.cells_with_mines = l.toFinset ∧
      (newGameByList b w h l).1.cells_with_mines.card ≤ w * h) ∧
    ((newGameByCount b w h mc perm).2 = false →
      (newGameByCount b w h mc perm).1.cells_with_mines.card ≤ w * h) := by
  refine ⟨newGameByCount_threw_iff, newGameByList_threw_iff, ?_, ?_⟩
  · intro hok
    obtain ⟨heq, hlen, _⟩ := newGameByList_ok hok
    rw [heq]
    refine ⟨rfl, ?_⟩
    show l.toFinset.card ≤ w * h
    calc l.toFinset.card ≤ l.length := List.toFinset_card_le l
      _ ≤ sizeTMul h w := hlen
      _ ≤ h * w := Nat.mod_le _ _
      _ = w * h := Nat.mul_comm h w
  · intro hok
    obtain ⟨heq, hle⟩ := newGameByCount_ok hok
    rw [heq]
    show (fillMines perm mc).card ≤ w * h
    unfold fillMines
    split
    · simp
    · calc (perm.take mc).toFinset.card ≤ (perm.take mc).length :=
          List.toFinset_card_le _
        _ ≤ mc := by
          rw [List.length_take]
          exact min_le_left _ _
        _ ≤ sizeTMul h w := hle
        _ ≤ h * w := Nat.mod_le _ _
        _ = w * h := Nat.mul_comm h w

/-- Witness for C8's amended theorem at concrete calls: an oversized
mine count fails (7 > 6 = the unwrapped 2×3 capacity), and a valid
explicit list succeeds with exactly the listed mines. -/
theorem C8_newGame_validation_witness :
    (newGameByCount initBoard 2 3 7 []).2 = true ∧
    (newGameByList initBoard 2 3 [⟨0, 0⟩, ⟨0, 0⟩]).1.cells_with_mines =
      ([⟨0, 0⟩, ⟨0, 0⟩] : List Cell).toFinset :=
  ⟨(C8_newGame_validation initBoard 2 3 7 [] []).1.mpr (by decide),
   ((C8_newGame_validation initBoard 2 3 7 [] [⟨0, 0⟩, ⟨0, 0⟩]).2.2.1 (by decide)).1⟩

/-- C6: `RenderField` returns exactly `height` strings of `width`
characters each, row `y` at index `y`, and the character at column `x`
follows the precedence mine-on-defeat (`*`) > flagged (`?`) > closed
(`-`) > neighbour count (digit, or `.` when zero); in particular a
flagged mine on a `DEFEAT` board renders as `*`. -/
theorem C6_renderField_correct (b : Board) :
    (renderField b).length = b.height ∧
    ∀ y, y < b.height → ∃ r, (renderField b).get? y = some r ∧
      r.length = b.width ∧
      ∀ x, x < b.width → r.data.get? x = some (specRenderChar b ⟨x, y⟩) := by
  constructor
  · unfold renderField
    simp
  · intro y hy
    refine ⟨renderRow b y, ?_, ?_, ?_⟩
    · unfold renderField
      rw [List.get?_map, List.get?_range hy]
      rfl
    · show (renderRow b y).data.length = b.width
      rw [renderRow_data]
      simp
    · intro x hx
      rw [renderRow_data, List.get?_map, List.get?_range hx]
      rfl

/-- Witness for C6 on a defeated 2×2 board whose mine at the origin was
flagged before the other mine was opened (so row 0 exercises the
mine-over-flag precedence). -/
theorem C6_renderField_correct_witness :
    ∃ r, (renderField (openCell (markCell
        (newGameByList initBoard 2 2 [⟨0, 0⟩, ⟨1, 1⟩]).1
        ⟨0, 0⟩ 3).1 ⟨1, 1⟩ 5).1).get? 0 = some r ∧
      r.length = (openCell (markCell (newGameByList initBoard 2 2 [⟨0, 0⟩, ⟨1, 1⟩]).1
        ⟨0, 0⟩ 3).1 ⟨1, 1⟩ 5).1.width ∧
      ∀ x, x < (openCell (markCell (newGameByList initBoard 2 2 [⟨0, 0⟩, ⟨1, 1⟩]).1
          ⟨0, 0⟩ 3).1 ⟨1, 1⟩ 5).1.width →
        r.data.get? x = some (specRenderChar (openCell (markCell
          (newGameByList initBoard 2 2 [⟨0, 0⟩, ⟨1, 1⟩]).1 ⟨0, 0⟩ 3).1
          ⟨1, 1⟩ 5).1 ⟨x, 0⟩) :=
  (C6_renderField_correct _).2 0 (by decide)

/-- The fuel passed by `floodLoop` is exactly the loop's iteration
count, so any larger fuel computes the same result: the fuel encoding
does not change the function computed by the `while` loop. -/
theorem floodLoopF_fuel_irrel {w h : Nat} {mines marked : Finset Cell} :
    ∀ (fuel fuel' : Nat) (q : List Cell) (closed : Finset Cell),
      q.length + closed.card ≤ fuel → q.length + closed.card ≤ fuel' →
      floodLoopF w h mines marked fuel q closed =
        floodLoopF w h mines marked fuel' q closed := by
  intro fuel
  induction fuel with
  | zero =>
    intro fuel' q closed hm _
    have hq : q = [] := List.length_eq_zero.mp (by omega)
    subst hq
    cases fuel' <;> rfl
  | succ fuel ih =>
    intro fuel' q closed hm hm'
    cases q with
    | nil => cases fuel' <;> rfl
    | cons cur q =>
      cases fuel' with
      | zero =>
        exfalso
        simp only [List.length_cons] at hm'
        omega
      | succ fuel' =>
        simp only [floodLoopF]
        simp only [List.length_cons] at hm hm'
        split
        · have hsum : (pushNeighbors w h marked cur q closed).1.length
              + (pushNeighbors w h marked cur q closed).2.card
              = q.length + closed.card := foldl_pushStep_sum offsets (q, closed)
          exact ih fuel' _ _ (by omega) (by omega)
        · exact ih fuel' q closed (by omega) (by omega)
